import Mathlib

/-!
Verification of the simple-alto-parser annotation pipeline.

This file shallowly embeds the parts of the repository that the checked
properties are about:

* the Python `dict` operations used throughout (`dictGet`, `dictSet`,
  `dictDel`, `pyUpdate`), modelled as association lists with
  insert-or-overwrite-in-place semantics;
* `PageFileParser.extract_from_textline` (tag boundary classification),
  `PageFileParser.extract_tags_of_region` (preliminary tag construction and
  the merge loop), `PageFileParser.parse_custom_tag`
  (from `simple_alto_parser/alto_file_parser.py`);
* `AltoPatternParser.find` / `remove` / `categorize`
  (from `simple_alto_parser/pattern_parser.py`), over an element model whose
  text setter and annotation writer follow the specification, since the
  element classes exposing them are not part of the sources at hand;
* the `AltoFile.text_regions` attribute semantics
  (from `simple_alto_parser/alto_file.py`), including Python's
  class-attribute / instance-attribute resolution, which is what decides
  whether two `AltoFile` objects share one region list.
-/

/-- Values a Python dict holds in the tag pipeline: strings, ints, booleans,
and Python `None`. -/
inductive PVal where
  | str (s : String)
  | int (n : Int)
  | bool (b : Bool)
  | pynone
deriving DecidableEq, Repr

/-- A Python dict, modelled as an association list in insertion order. -/
abbrev PyDict (α : Type) := List (String × α)

/-- Python `d[k]` read / `k in d`: the first binding of `k`. -/
def dictGet {α : Type} : PyDict α → String → Option α
  | [], _ => none
  | (k', v) :: rest, k => if k' = k then some v else dictGet rest k

/-- Python `d[k] = v`: overwrite in place if the key exists, else append. -/
def dictSet {α : Type} : PyDict α → String → α → PyDict α
  | [], k, v => [(k, v)]
  | (k', v') :: rest, k, v =>
    if k' = k then (k', v) :: rest else (k', v') :: dictSet rest k v

/-- Python `del d[k]`: drop the binding of `k`. -/
def dictDel {α : Type} : PyDict α → String → PyDict α
  | [], _ => []
  | (k', v') :: rest, k =>
    if k' = k then dictDel rest k else (k', v') :: dictDel rest k

/-- Python `k in d`. -/
def dictHas {α : Type} (d : PyDict α) (k : String) : Bool :=
  (dictGet d k).isSome

/-- Python `base.update(upd)`: write every binding of `upd`, in order. -/
def pyUpdate {α : Type} (base upd : PyDict α) : PyDict α :=
  upd.foldl (fun b p => dictSet b p.1 p.2) base

/-- Python `int(...)` on the values that occur in tag property maps:
ints pass through, booleans become 0/1, decimal strings (with optional
sign and surrounding whitespace) are parsed, anything else fails. -/
def pyToInt : PVal → Option Int
  | .int n => some n
  | .bool b => some (if b then 1 else 0)
  | .str s =>
    let t := s.trim
    let core := if t.startsWith "-" || t.startsWith "+" then t.drop 1 else t
    if core.length > 0 && core.all Char.isDigit then
      some (if t.startsWith "-" then -(core.toNat!) else (core.toNat! : Int))
    else none
  | .pynone => none

/-- Python slicing `s[a:b]` (step 1) over a list of characters. -/
def pySlice (l : List Char) (a b : Int) : List Char :=
  let n : Int := l.length
  let a' : Nat := if a < 0 then (n + a).toNat else min a.toNat l.length
  let b' : Nat := if b < 0 then (n + b).toNat else min b.toNat l.length
  (l.drop a').take (b' - a')

/-- `PageFileParser.extract_from_textline` from alto_file_parser.py:
slice the tagged text out of the line, record the line length, and when the
instance carries a `continued` marker classify it with
`line_starter = (offset == 0)` and
`line_ender = (offset + length + 1 == len(text_line))`. -/
def extract_from_textline (item : PyDict PVal) (text_line : List Char) : PyDict PVal :=
  if dictHas item "length" && dictHas item "offset" then
    match pyToInt ((dictGet item "length").getD .pynone),
          pyToInt ((dictGet item "offset").getD .pynone) with
    | some length, some offset =>
      let item := dictSet item "length" (.int length)
      let item := dictSet item "offset" (.int offset)
      let item := dictSet item "text"
        (.str (String.mk (pySlice text_line (offset + 1) (offset + length + 1))))
      let item := dictSet item "line_length" (.int text_line.length)
      let line_starter : Bool := offset == 0
      let line_ender : Bool := offset + length + 1 == (text_line.length : Int)
      if dictHas item "continued" then
        let item := dictDel item "continued"
        if line_ender && !line_starter then dictSet item "starts_tag" (.bool true)
        else if line_starter && line_ender then dictSet item "continues_tag" (.bool true)
        else if line_starter && !line_ender then dictSet item "ends_tag" (.bool true)
        else item
      else item
    | _, _ => item
  else item

theorem dictGet_dictSet_same {α : Type} (d : PyDict α) (k : String) (v : α) :
    dictGet (dictSet d k v) k = some v := by
  induction d with
  | nil => simp [dictSet, dictGet]
  | cons p rest ih =>
    by_cases h : p.1 = k <;> simp [dictSet, dictGet, h, ih]

theorem dictGet_dictSet_ne {α : Type} (d : PyDict α) (k k' : String) (v : α)
    (h : k' ≠ k) : dictGet (dictSet d k' v) k = dictGet d k := by
  induction d with
  | nil => simp [dictSet, dictGet, h]
  | cons p rest ih =>
    by_cases hp : p.1 = k'
    · simp [dictSet, dictGet, hp, h]
    · by_cases hk : p.1 = k <;> simp [dictSet, dictGet, hp, hk, ih, Ne.symm h]

theorem dictGet_dictDel_same {α : Type} (d : PyDict α) (k : String) :
    dictGet (dictDel d k) k = none := by
  induction d with
  | nil => simp [dictDel, dictGet]
  | cons p rest ih =>
    by_cases hp : p.1 = k <;> simp [dictDel, dictGet, hp, ih]

theorem dictGet_dictDel_ne {α : Type} (d : PyDict α) (k k' : String)
    (h : k' ≠ k) : dictGet (dictDel d k') k = dictGet d k := by
  induction d with
  | nil => simp [dictDel, dictGet]
  | cons p rest ih =>
    by_cases hp : p.1 = k'
    · simp [dictDel, dictGet, hp, h, ih]
    · by_cases hk : p.1 = k <;> simp [dictDel, dictGet, hp, hk, ih, Ne.symm h]

theorem dictHas_dictSet_same {α : Type} (d : PyDict α) (k : String) (v : α) :
    dictHas (dictSet d k v) k = true := by
  simp [dictHas, dictGet_dictSet_same]

theorem dictHas_dictSet_ne {α : Type} (d : PyDict α) (k k' : String) (v : α)
    (h : k' ≠ k) : dictHas (dictSet d k' v) k = dictHas d k := by
  simp [dictHas, dictGet_dictSet_ne _ _ _ _ h]

theorem dictHas_dictDel_ne {α : Type} (d : PyDict α) (k k' : String)
    (h : k' ≠ k) : dictHas (dictDel d k') k = dictHas d k := by
  simp [dictHas, dictGet_dictDel_ne _ _ _ h]

/-- C1: for a tag instance carrying integer `offset`/`length` keys and a
`continued` marker, `extract_from_textline` classifies it by
`line_starter = (offset == 0)` and `line_ender = (offset+length+1 == line_length)`
exactly per the four-case table: (false,true) ⇒ starts_tag,
(true,true) ⇒ continues_tag, (true,false) ⇒ ends_tag,
(false,false) ⇒ none of the three markers. -/
theorem extract_from_textline_classifies
    (item : PyDict PVal) (line : List Char) (ov lv : PVal) (off len : Int)
    (hov : dictGet item "offset" = some ov) (hoff : pyToInt ov = some off)
    (hlv : dictGet item "length" = some lv) (hlen : pyToInt lv = some len)
    (hcont : dictHas item "continued" = true)
    (hs : dictHas item "starts_tag" = false)
    (hc : dictHas item "continues_tag" = false)
    (he : dictHas item "ends_tag" = false) :
    ((off == 0) = false → (off + len + 1 == (line.length : Int)) = true →
      dictHas (extract_from_textline item line) "starts_tag" = true ∧
      dictHas (extract_from_textline item line) "continues_tag" = false ∧
      dictHas (extract_from_textline item line) "ends_tag" = false) ∧
    ((off == 0) = true → (off + len + 1 == (line.length : Int)) = true →
      dictHas (extract_from_textline item line) "starts_tag" = false ∧
      dictHas (extract_from_textline item line) "continues_tag" = true ∧
      dictHas (extract_from_textline item line) "ends_tag" = false) ∧
    ((off == 0) = true → (off + len + 1 == (line.length : Int)) = false →
      dictHas (extract_from_textline item line) "starts_tag" = false ∧
      dictHas (extract_from_textline item line) "continues_tag" = false ∧
      dictHas (extract_from_textline item line) "ends_tag" = true) ∧
    ((off == 0) = false → (off + len + 1 == (line.length : Int)) = false →
      dictHas (extract_from_textline item line) "starts_tag" = false ∧
      dictHas (extract_from_textline item line) "continues_tag" = false ∧
      dictHas (extract_from_textline item line) "ends_tag" = false) := by
  have hhl : dictHas item "length" = true := by simp [dictHas, hlv]
  have hho : dictHas item "offset" = true := by simp [dictHas, hov]
  refine ⟨?_, ?_, ?_, ?_⟩ <;> intro h1 h2 <;>
    simp [extract_from_textline, hhl, hho, hlv, hov, hlen, hoff, h1, h2,
      dictHas_dictSet_same, dictHas_dictSet_ne, dictHas_dictDel_ne,
      hcont, hs, hc, he]

/-- Witness for C1 at a concrete input: line "ABCD", offset 2, length 1,
continued ⇒ line_starter=false, line_ender=true ⇒ starts_tag. -/
theorem extract_from_textline_classifies_witness :
    dictHas (extract_from_textline
      [("offset", PVal.int 2), ("length", PVal.int 1), ("continued", PVal.bool true)]
      ("ABCD".data)) "starts_tag" = true ∧
    dictHas (extract_from_textline
      [("offset", PVal.int 2), ("length", PVal.int 1), ("continued", PVal.bool true)]
      ("ABCD".data)) "continues_tag" = false ∧
    dictHas (extract_from_textline
      [("offset", PVal.int 2), ("length", PVal.int 1), ("continued", PVal.bool true)]
      ("ABCD".data)) "ends_tag" = false :=
  (extract_from_textline_classifies
    [("offset", PVal.int 2), ("length", PVal.int 1), ("continued", PVal.bool true)]
    ("ABCD".data) (PVal.int 2) (PVal.int 1) 2 1
    (by decide) (by decide) (by decide) (by decide)
    (by decide) (by decide) (by decide) (by decide)).1 (by decide) (by decide)

/-- C6 counterexample: on line "ABCD" (length 4) with offset=0, length=3,
continued, the code computes line_ender = (0+3+1 == 4) = true (not false, as
claimed) and classifies the instance as continues_tag, not ends_tag. -/
theorem extract_from_textline_abcd_refutes :
    ((0 : Int) + 3 + 1 == (("ABCD".data).length : Int)) = true ∧
    dictHas (extract_from_textline
      [("offset", PVal.int 0), ("length", PVal.int 3), ("continued", PVal.bool true)]
      ("ABCD".data)) "ends_tag" = false ∧
    dictHas (extract_from_textline
      [("offset", PVal.int 0), ("length", PVal.int 3), ("continued", PVal.bool true)]
      ("ABCD".data)) "continues_tag" = true := by
  decide

/-- C6 amended: on line "ABCD" (length 4) with offset=0, length=3, continued,
the code computes line_starter=true and line_ender=true and classifies the
instance as continues_tag (setting no other boundary marker). -/
theorem extract_from_textline_abcd_continues :
    (((0 : Int) == 0) = true ∧
      ((0 : Int) + 3 + 1 == (("ABCD".data).length : Int)) = true) ∧
    dictHas (extract_from_textline
      [("offset", PVal.int 0), ("length", PVal.int 3), ("continued", PVal.bool true)]
      ("ABCD".data)) "continues_tag" = true ∧
    dictHas (extract_from_textline
      [("offset", PVal.int 0), ("length", PVal.int 3), ("continued", PVal.bool true)]
      ("ABCD".data)) "starts_tag" = false ∧
    dictHas (extract_from_textline
      [("offset", PVal.int 0), ("length", PVal.int 3), ("continued", PVal.bool true)]
      ("ABCD".data)) "ends_tag" = false := by
  decide

/-- `tag["text"]` read in the merge loop: a missing key is a Python
`KeyError`, a non-string value makes the `+` concatenation a `TypeError`. -/
def getTextVal (d : PyDict PVal) : Except String String :=
  match dictGet d "text" with
  | some (.str s) => .ok s
  | some _ => .error "TypeError"
  | none => .error "KeyError"

/-- The key stripping at the top of the merge loop of
`extract_tags_of_region`: `length`, `offset` and `line_length` are deleted
(absence is only a logged warning). -/
def stripBookkeeping (d : PyDict PVal) : PyDict PVal :=
  dictDel (dictDel (dictDel d "length") "offset") "line_length"

/-- The merge loop of `PageFileParser.extract_tags_of_region`
(alto_file_parser.py): `current` is the open logical tag, `tags` the output
accumulator; the loop returns `tags`, discarding any tag still open. -/
def mergeLoop (current : Option (PyDict PVal)) (tags : List (PyDict PVal)) :
    List (PyDict PVal) → Except String (List (PyDict PVal))
  | [] => .ok tags
  | tag :: rest =>
    let tag := stripBookkeeping tag
    if dictHas tag "starts_tag" then mergeLoop (some tag) tags rest
    else if dictHas tag "continues_tag" then
      match current with
      | some cur => do
        let ct ← getTextVal cur
        let tt ← getTextVal tag
        mergeLoop (some (dictSet cur "text" (.str (ct ++ " " ++ tt)))) tags rest
      | none => mergeLoop none tags rest
    else if dictHas tag "ends_tag" then
      match current with
      | some cur => do
        let ct ← getTextVal cur
        let tt ← getTextVal tag
        mergeLoop none
          (tags ++ [dictDel (dictSet cur "text" (.str (ct ++ " " ++ tt))) "starts_tag"]) rest
      | none => mergeLoop none tags rest
    else mergeLoop current (tags ++ [tag]) rest

/-- The logical tag that a starts/continues/ends triple merges into. -/
def mergedTriple (s : PyDict PVal) (ts tc te : String) : PyDict PVal :=
  dictDel
    (dictSet (dictSet (stripBookkeeping s) "text" (.str (ts ++ " " ++ tc)))
      "text" (.str (ts ++ " " ++ tc ++ " " ++ te)))
    "starts_tag"

/-- C4: a starts_tag instance immediately followed by a continues_tag and an
ends_tag instance of the same tag name merges into exactly one logical tag,
whose text is the space-joined concatenation of the three fragments in line
order, and which no longer carries the starts_tag marker. -/
theorem mergeLoop_merges_triple
    (current : Option (PyDict PVal)) (tags : List (PyDict PVal))
    (s c e : PyDict PVal) (post : List (PyDict PVal))
    (name ts tc te : String)
    (hsn : dictGet s "type" = some (.str name))
    (hcn : dictGet c "type" = some (.str name))
    (hen : dictGet e "type" = some (.str name))
    (hs1 : dictHas s "starts_tag" = true)
    (hc1 : dictHas c "starts_tag" = false) (hc2 : dictHas c "continues_tag" = true)
    (he1 : dictHas e "starts_tag" = false) (he2 : dictHas e "continues_tag" = false)
    (he3 : dictHas e "ends_tag" = true)
    (hts : dictGet s "text" = some (.str ts))
    (htc : dictGet c "text" = some (.str tc))
    (hte : dictGet e "text" = some (.str te)) :
    mergeLoop current tags (s :: c :: e :: post) =
      mergeLoop none (tags ++ [mergedTriple s ts tc te]) post ∧
    dictGet (mergedTriple s ts tc te) "text" =
      some (.str (ts ++ " " ++ tc ++ " " ++ te)) ∧
    dictHas (mergedTriple s ts tc te) "starts_tag" = false := by
  refine ⟨?_, ?_, ?_⟩
  · simp [mergeLoop, stripBookkeeping, dictHas_dictDel_ne, dictGet_dictDel_ne,
      dictHas_dictSet_ne, dictGet_dictSet_same, getTextVal, hs1, hc1, hc2,
      he1, he2, he3, hts, htc, hte, mergedTriple, Bind.bind, Except.bind]
  · simp [mergedTriple, dictGet_dictDel_ne, dictGet_dictSet_same]
  · simp [mergedTriple, dictHas, dictGet_dictDel_same]

/-- A concrete opening tag instance (`per` span, first fragment). -/
def tagS0 : PyDict PVal :=
  [("type", PVal.str "per"), ("text", PVal.str "Anna"), ("starts_tag", PVal.bool true)]

/-- A concrete continuing tag instance (`per` span, middle fragment). -/
def tagC0 : PyDict PVal :=
  [("type", PVal.str "per"), ("text", PVal.str "Maria"), ("continues_tag", PVal.bool true)]

/-- A concrete ending tag instance (`per` span, last fragment). -/
def tagE0 : PyDict PVal :=
  [("type", PVal.str "per"), ("text", PVal.str "Muster"), ("ends_tag", PVal.bool true)]

/-- Witness for C4 at the concrete triple tagS0/tagC0/tagE0. -/
theorem mergeLoop_merges_triple_witness :
    mergeLoop none [] [tagS0, tagC0, tagE0] =
      mergeLoop none ([] ++ [mergedTriple tagS0 "Anna" "Maria" "Muster"]) [] ∧
    dictGet (mergedTriple tagS0 "Anna" "Maria" "Muster") "text" =
      some (.str ("Anna" ++ " " ++ "Maria" ++ " " ++ "Muster")) ∧
    dictHas (mergedTriple tagS0 "Anna" "Maria" "Muster") "starts_tag" = false :=
  mergeLoop_merges_triple none [] tagS0 tagC0 tagE0 [] "per" "Anna" "Maria" "Muster"
    (by decide) (by decide) (by decide) (by decide) (by decide) (by decide)
    (by decide) (by decide) (by decide) (by decide) (by decide) (by decide)

/-- C5: a continues_tag or ends_tag instance observed while no tag is open
contributes zero tags to the output (the fragment is dropped, the loop does
not abort), and a tag still open when the instance sequence ends is never
emitted (the loop returns the accumulated output only). -/
theorem mergeLoop_drops_unmatched
    (tags : List (PyDict PVal)) (c e cur : PyDict PVal) (rest : List (PyDict PVal))
    (hc1 : dictHas c "starts_tag" = false) (hc2 : dictHas c "continues_tag" = true)
    (he1 : dictHas e "starts_tag" = false) (he2 : dictHas e "continues_tag" = false)
    (he3 : dictHas e "ends_tag" = true) :
    mergeLoop none tags (c :: rest) = mergeLoop none tags rest ∧
    mergeLoop none tags (e :: rest) = mergeLoop none tags rest ∧
    mergeLoop (some cur) tags [] = .ok tags := by
  refine ⟨?_, ?_, ?_⟩ <;>
    simp [mergeLoop, stripBookkeeping, dictHas_dictDel_ne, hc1, hc2, he1, he2, he3]

/-- Witness for C5 at the concrete instances tagC0/tagE0/tagS0. -/
theorem mergeLoop_drops_unmatched_witness :
    mergeLoop none [] [tagC0] = mergeLoop none [] [] ∧
    mergeLoop none [] [tagE0] = mergeLoop none [] [] ∧
    mergeLoop (some tagS0) [] [] = .ok [] :=
  mergeLoop_drops_unmatched [] tagC0 tagE0 tagS0 []
    (by decide) (by decide) (by decide) (by decide) (by decide)

/-- `get_tag_type` from alto_file_parser.py: lower-case the tag name. -/
def get_tag_type (tag_name : String) : String := tag_name.toLower

/-- The inner loop of the preliminary-tag construction in
`extract_tags_of_region` for a tag name bound to a list of property maps:
one accumulator `data` is updated with each instance's properties and
appended after each update, so every emitted instance is the accumulated
dict as of its append. -/
def buildListEntries (data : PyDict PVal) : List (PyDict PVal) → List (PyDict PVal)
  | [] => []
  | d :: rest =>
    let data' := pyUpdate data d
    data' :: buildListEntries data' rest

/-- The emitted instances for one tag name occurring as a list on one line:
the shared accumulator starts as the dict holding only the tag type. -/
def tagEntriesOfList (tag_name : String) (ds : List (PyDict PVal)) :
    List (PyDict PVal) :=
  buildListEntries [("type", PVal.str (get_tag_type tag_name))] ds

theorem dictGet_eq_none_of_not_mem {α : Type} (d : PyDict α) (k : String)
    (h : k ∉ d.map Prod.fst) : dictGet d k = none := by
  induction d with
  | nil => rfl
  | cons p rest ih =>
    simp only [List.map_cons, List.mem_cons] at h
    push_neg at h
    simp [dictGet, Ne.symm h.1, ih h.2]

theorem dictGet_pyUpdate_absent {α : Type} (base upd : PyDict α) (k : String)
    (h : dictHas upd k = false) :
    dictGet (pyUpdate base upd) k = dictGet base k := by
  induction upd generalizing base with
  | nil => rfl
  | cons p rest ih =>
    by_cases hp : p.1 = k
    · simp [dictHas, dictGet, hp] at h
    · have hrest : dictHas rest k = false := by
        simpa [dictHas, dictGet, hp] using h
      show dictGet (pyUpdate (dictSet base p.1 p.2) rest) k = dictGet base k
      rw [ih _ hrest, dictGet_dictSet_ne _ _ _ _ hp]

theorem dictGet_pyUpdate_present {α : Type} (base upd : PyDict α) (k : String)
    (v : α) (hnd : (upd.map Prod.fst).Nodup) (h : dictGet upd k = some v) :
    dictGet (pyUpdate base upd) k = some v := by
  induction upd generalizing base with
  | nil => simp [dictGet] at h
  | cons p rest ih =>
    simp only [List.map_cons, List.nodup_cons] at hnd
    by_cases hp : p.1 = k
    · have hv : p.2 = v := by simpa [dictGet, hp] using h
      have habs : dictHas rest k = false := by
        have : k ∉ rest.map Prod.fst := hp ▸ hnd.1
        simp [dictHas, dictGet_eq_none_of_not_mem _ _ this]
      show dictGet (pyUpdate (dictSet base p.1 p.2) rest) k = some v
      rw [dictGet_pyUpdate_absent _ _ _ habs, hp, hv, dictGet_dictSet_same]
    · have hr : dictGet rest k = some v := by simpa [dictGet, hp] using h
      exact ih _ hnd.2 hr

theorem foldl_pyUpdate_all_absent (l : List (PyDict PVal)) (data : PyDict PVal)
    (k : String) (v : PVal) (hv : dictGet data k = some v)
    (habs : ∀ m, m < l.length → dictHas (l.getD m []) k = false) :
    dictGet (l.foldl pyUpdate data) k = some v := by
  induction l generalizing data with
  | nil => simpa using hv
  | cons d rest ih =>
    have h0 : dictHas d k = false := by
      have := habs 0 (by simp)
      simpa [List.getD] using this
    refine ih (pyUpdate data d) ?_ ?_
    · rw [dictGet_pyUpdate_absent _ _ _ h0]; exact hv
    · intro m hm
      have := habs (m + 1) (by simpa using Nat.succ_lt_succ hm)
      simpa [List.getD] using this

theorem getD_take_of_lt {α : Type} (l : List α) (i m : Nat) (d : α)
    (h : m < i) : (l.take i).getD m d = l.getD m d := by
  induction l generalizing i m with
  | nil => simp
  | cons x xs ih =>
    cases i with
    | zero => omega
    | succ i' =>
      cases m with
      | zero => simp [List.getD]
      | succ m' => simpa [List.getD] using ih i' m' (by omega)

theorem buildListEntries_getElem (data : PyDict PVal) (ds : List (PyDict PVal))
    (i : Nat) (h : i < ds.length) :
    (buildListEntries data ds)[i]? =
      some ((ds.take (i + 1)).foldl pyUpdate data) := by
  induction ds generalizing data i with
  | nil => simp at h
  | cons d rest ih =>
    cases i with
    | zero => simp [buildListEntries]
    | succ i' =>
      have h' : i' < rest.length := by simpa using h
      simpa [buildListEntries, List.take, List.foldl] using ih (pyUpdate data d) i' h'

theorem buildListEntries_length (data : PyDict PVal) (ds : List (PyDict PVal)) :
    (buildListEntries data ds).length = ds.length := by
  induction ds generalizing data with
  | nil => rfl
  | cons d rest ih => simp [buildListEntries, ih]

theorem foldl_take_inherits (ds : List (PyDict PVal)) (i j : Nat) (k : String)
    (v : PVal) (data : PyDict PVal)
    (hj : j < i) (hi : i < ds.length)
    (hset : dictGet (ds.getD j []) k = some v)
    (hnd : ((ds.getD j []).map Prod.fst).Nodup)
    (hno : ∀ j', j < j' → j' ≤ i → dictHas (ds.getD j' []) k = false) :
    dictGet ((ds.take (i + 1)).foldl pyUpdate data) k = some v := by
  induction ds generalizing i j data with
  | nil => simp at hi
  | cons d rest ih =>
    cases j with
    | zero =>
      obtain ⟨i', rfl⟩ : ∃ i', i = i' + 1 := ⟨i - 1, by omega⟩
      have hd : dictGet d k = some v := by simpa [List.getD] using hset
      have hndd : (d.map Prod.fst).Nodup := by simpa [List.getD] using hnd
      have hbase : dictGet (pyUpdate data d) k = some v :=
        dictGet_pyUpdate_present _ _ _ _ hndd hd
      show dictGet ((rest.take (i' + 1)).foldl pyUpdate (pyUpdate data d)) k = some v
      refine foldl_pyUpdate_all_absent _ _ _ _ hbase ?_
      intro m hm
      have hlen := List.length_take_le (i' + 1) rest
      have hm' : m < i' + 1 := by omega
      rw [getD_take_of_lt _ _ _ _ hm']
      have := hno (m + 1) (by omega) (by omega)
      simpa [List.getD] using this
    | succ j' =>
      obtain ⟨i', rfl⟩ : ∃ i', i = i' + 1 := ⟨i - 1, by omega⟩
      show dictGet ((rest.take (i' + 1)).foldl pyUpdate (pyUpdate data d)) k = some v
      refine ih i' j' (pyUpdate data d) (by omega) (by simpa using hi) ?_ ?_ ?_
      · simpa [List.getD] using hset
      · simpa [List.getD] using hnd
      · intro m h1 h2
        have := hno (m + 1) (by omega) (by omega)
        simpa [List.getD] using this

/-- C9: when one tag name occurs several times in one line's raw tag string,
all emitted instances for that name come out of a single shared accumulator
dict: the i-th emitted instance still contains every key/value written by an
earlier instance of that name, as long as no instance up to (and including)
itself overwrote that key. -/
theorem tagEntries_shared_accumulator
    (tag_name : String) (ds : List (PyDict PVal)) (i j : Nat) (k : String) (v : PVal)
    (hj : j < i) (hi : i < ds.length)
    (hset : dictGet (ds.getD j []) k = some v)
    (hnd : ((ds.getD j []).map Prod.fst).Nodup)
    (hno : ∀ j', j < j' → j' ≤ i → dictHas (ds.getD j' []) k = false) :
    (tagEntriesOfList tag_name ds).length = ds.length ∧
    ∃ inst, (tagEntriesOfList tag_name ds)[i]? = some inst ∧
      dictGet inst k = some v := by
  refine ⟨buildListEntries_length _ _, ?_⟩
  exact ⟨_, buildListEntries_getElem _ _ _ hi,
    foldl_take_inherits ds i j k v _ hj hi hset hnd hno⟩

/-- Witness for C9: two `Person` instances on one line; the second emitted
instance inherits the first instance's property `a`. -/
theorem tagEntries_shared_accumulator_witness :
    (tagEntriesOfList "Person" [[("a", PVal.str "1")], [("b", PVal.str "2")]]).length = 2 ∧
    ∃ inst,
      (tagEntriesOfList "Person"
        [[("a", PVal.str "1")], [("b", PVal.str "2")]])[1]? = some inst ∧
      dictGet inst "a" = some (PVal.str "1") :=
  tagEntries_shared_accumulator "Person" [[("a", PVal.str "1")], [("b", PVal.str "2")]]
    1 0 "a" (PVal.str "1") (by decide) (by decide) (by decide) (by decide)
    (fun j' h1 h2 => by
      have hj1 : j' = 1 := le_antisymm h2 h1
      subst hj1; decide)

/-- The opening curly brace character. -/
def openBrace : Char := Char.ofNat 123

/-- The closing curly brace character. -/
def closeBrace : Char := Char.ofNat 125

/-- Python regex `\w` (ASCII range): letters, digits, underscore. -/
def isWordChar (c : Char) : Bool := c.isAlphanum || c = '_'

/-- Python regex `\s`: whitespace. -/
def isPySpace (c : Char) : Bool :=
  c = ' ' || c = '\t' || c = '\n' || c = '\r' || c = '\x0b' || c = '\x0c'

/-- Python `str.split(sep)` for a one-character separator, keeping empty
pieces, structurally over the character list. -/
def pySplitAux (sep : Char) : List Char → List Char → List (List Char)
  | [], cur => [cur.reverse]
  | c :: rest, cur =>
    if c = sep then cur.reverse :: pySplitAux sep rest []
    else pySplitAux sep rest (c :: cur)

/-- Python `s.split(sep)` with a one-character separator. -/
def pySplit1 (sep : Char) (s : List Char) : List (List Char) :=
  pySplitAux sep s []

/-- Python `str.strip()`: drop whitespace from both ends. -/
def pyStrip (s : List Char) : List Char :=
  ((s.dropWhile isPySpace).reverse.dropWhile isPySpace).reverse

/-- One attempted match of the pattern `(\w+)\s*\x7b([^\x7d]*)\x7d` at the
head of the input: a nonempty word-character run, optional whitespace, an
opening brace, the body up to the next closing brace, and that brace.
Returns the two capture groups and the remaining input. -/
def tryTagMatch (l : List Char) : Option ((List Char × List Char) × List Char) :=
  let (w, rest1) := l.span isWordChar
  if w.isEmpty then none
  else
    let (_, rest2) := rest1.span isPySpace
    match rest2 with
    | [] => none
    | c :: rest3 =>
      if c = openBrace then
        let (body, rest4) := rest3.span (fun ch => ch ≠ closeBrace)
        match rest4 with
        | [] => none
        | _ :: rest5 => some ((w, body), rest5)
      else none

/-- Python `re.findall(r'(\w+)\s*\x7b([^\x7d]*)\x7d', s)`: scan left to
right, one character at a time, resuming after each non-overlapping match.
Fuel-driven; the fuel is the input length, which suffices because a match
always consumes at least one character. -/
def pyFindAllTags : Nat → List Char → List (List Char × List Char)
  | 0, _ => []
  | _ + 1, [] => []
  | n + 1, c :: rest =>
    match tryTagMatch (c :: rest) with
    | some (kv, after) => kv :: pyFindAllTags n after
    | none => pyFindAllTags n rest

/-- All `name(...)` segments of a raw custom-tag string, with their two
capture groups. -/
def findAllTags (s : String) : List (List Char × List Char) :=
  pyFindAllTags s.data.length s.data

/-- One step of the property loop inside `parse_custom_tag`:
skip blank properties, split the rest at `:` and unpack into exactly a key
and a value (Python raises ValueError when the unpacking fails). -/
def propStep (acc : PyDict String) (value : List Char) : Except String (PyDict String) :=
  if (pyStrip value).isEmpty then .ok acc
  else
    match pySplit1 ':' (pyStrip value) with
    | [k, v] => .ok (dictSet acc (String.mk (pyStrip k)) (String.mk (pyStrip v)))
    | _ => .error "ValueError: unpack"

/-- The property loop of `parse_custom_tag` over one segment's body. -/
def parsePropPairs (values : List Char) : Except String (PyDict String) :=
  (pySplit1 ';' values).foldlM propStep []

/-- The value a tag name maps to in a parsed custom-tag dict: a single
property map, or a list of them once the name recurs. -/
inductive TagVal where
  | single (d : PyDict String)
  | multi (ds : List (PyDict String))
deriving DecidableEq, Repr

/-- The duplicate-name handling of `parse_custom_tag`: a recurring key is
promoted to a list and further occurrences are appended. -/
def addTagSegment (item : PyDict TagVal) (key : String) (vd : PyDict String) :
    PyDict TagVal :=
  match dictGet item key with
  | some (.multi ds) => dictSet item key (.multi (ds ++ [vd]))
  | some (.single d) => dictSet item key (.multi [d, vd])
  | none => dictSet item key (.single vd)

/-- One segment step of `parse_custom_tag`. -/
def segStep (item : PyDict TagVal) (kv : List Char × List Char) :
    Except String (PyDict TagVal) := do
  let vd ← parsePropPairs kv.2
  pure (addTagSegment item (String.mk kv.1) vd)

/-- `PageFileParser.parse_custom_tag` from alto_file_parser.py. -/
def parse_custom_tag (custom_tag : String) : Except String (PyDict TagVal) :=
  (findAllTags custom_tag).foldlM segStep []

/-- `True` for an `Except` value that is no error. -/
def exceptIsOk {ε α : Type} : Except ε α → Bool
  | .ok _ => true
  | .error _ => false

theorem propFold_isOk (l : List (List Char)) (acc : PyDict String) :
    exceptIsOk (l.foldlM propStep acc) = true ↔
      ∀ v ∈ l, (pyStrip v).isEmpty = false →
        (pySplit1 ':' (pyStrip v)).length = 2 := by
  induction l generalizing acc with
  | nil => simp [List.foldlM, exceptIsOk, pure, Except.pure]
  | cons v rest ih =>
    by_cases hv : pyStrip v = []
    · simp [List.foldlM, propStep, hv, ih, Bind.bind, Except.bind]
    · rcases hsplit : pySplit1 ':' (pyStrip v) with _ | ⟨k, _ | ⟨vv, _ | more⟩⟩
      · simp [List.foldlM, propStep, hv, hsplit, exceptIsOk, Bind.bind, Except.bind,
          List.isEmpty_eq_true, List.isEmpty_eq_false]
      · simp [List.foldlM, propStep, hv, hsplit, exceptIsOk, Bind.bind, Except.bind,
          List.isEmpty_eq_true, List.isEmpty_eq_false]
      · have hacc := ih (dictSet acc (String.mk (pyStrip k)) (String.mk (pyStrip vv)))
        simp [List.foldlM, propStep, hv, hsplit, Bind.bind, Except.bind, hacc,
          List.isEmpty_eq_true, List.isEmpty_eq_false]
      · simp [List.foldlM, propStep, hv, hsplit, exceptIsOk, Bind.bind, Except.bind,
          List.isEmpty_eq_true, List.isEmpty_eq_false]

theorem segFold_isOk (l : List (List Char × List Char)) (item : PyDict TagVal) :
    exceptIsOk (l.foldlM segStep item) = true ↔
      ∀ kv ∈ l, exceptIsOk (parsePropPairs kv.2) = true := by
  induction l generalizing item with
  | nil => simp [List.foldlM, exceptIsOk, pure, Except.pure]
  | cons kv rest ih =>
    cases hp : parsePropPairs kv.2 with
    | ok vd =>
      have hacc := ih (addTagSegment item (String.mk kv.1) vd)
      simp only [List.foldlM, segStep, hp, Bind.bind, Except.bind, pure, Except.pure]
      rw [hacc]
      constructor
      · intro h kv' hkv'
        rcases List.mem_cons.mp hkv' with rfl | hmem
        · simp [exceptIsOk, hp]
        · exact h kv' hmem
      · intro h kv' hkv'
        exact h kv' (List.mem_cons_of_mem _ hkv')
    | error msg =>
      simp [List.foldlM, segStep, hp, Bind.bind, Except.bind, exceptIsOk]

/-- C10: `parse_custom_tag` is not total over raw tag strings: it succeeds
exactly when, in every `name(...)` segment it finds, every non-blank
semicolon-separated property splits at `:` into exactly a key and a value;
in particular any property with more than one colon makes it raise
(Python ValueError from tuple unpacking) instead of returning a map. -/
theorem parse_custom_tag_totality (s : String) :
    (exceptIsOk (parse_custom_tag s) = true ↔
      ∀ seg ∈ findAllTags s, ∀ v ∈ pySplit1 ';' seg.2,
        (pyStrip v).isEmpty = false → (pySplit1 ':' (pyStrip v)).length = 2) ∧
    ((∃ seg ∈ findAllTags s, ∃ v ∈ pySplit1 ';' seg.2,
        (pyStrip v).isEmpty = false ∧ 2 < (pySplit1 ':' (pyStrip v)).length) →
      ∃ msg, parse_custom_tag s = .error msg) := by
  have hmain : exceptIsOk (parse_custom_tag s) = true ↔
      ∀ seg ∈ findAllTags s, ∀ v ∈ pySplit1 ';' seg.2,
        (pyStrip v).isEmpty = false → (pySplit1 ':' (pyStrip v)).length = 2 := by
    unfold parse_custom_tag
    rw [segFold_isOk]
    constructor
    · intro h seg hseg v hv hne
      exact (propFold_isOk _ _).1 (h seg hseg) v hv hne
    · intro h kv hkv
      exact (propFold_isOk _ _).2 (h kv hkv)
  refine ⟨hmain, ?_⟩
  rintro ⟨seg, hseg, v, hv, hne, hlen⟩
  have hbad : ¬ ∀ seg ∈ findAllTags s, ∀ v ∈ pySplit1 ';' seg.2,
      (pyStrip v).isEmpty = false → (pySplit1 ':' (pyStrip v)).length = 2 := by
    intro hall
    have := hall seg hseg v hv hne
    omega
  have hfalse : exceptIsOk (parse_custom_tag s) = false := by
    cases hr : exceptIsOk (parse_custom_tag s)
    · rfl
    · exact absurd (hmain.1 hr) hbad
  cases hr : parse_custom_tag s with
  | ok d => rw [hr] at hfalse; simp [exceptIsOk] at hfalse
  | error msg => exact ⟨msg, rfl⟩

/-- Witness for C10: a segment whose `when` property value contains a colon
makes `parse_custom_tag` raise. -/
theorem parse_custom_tag_totality_witness :
    ∃ msg, parse_custom_tag "date\x7bwhen:2020-01-01T00:00\x7d" = .error msg :=
  (parse_custom_tag_totality "date\x7bwhen:2020-01-01T00:00\x7d").2 (by decide)

/-- A Python `re.Match`: the list of groups, group 0 first; a group that did
not participate is `none`. -/
structure ReMatch where
  groups : List (Option String)
deriving DecidableEq, Repr

/-- A compiled pattern as the pattern parser uses it: `re.search` against a
text, and `re.sub(pattern, '', text)` (global removal of non-overlapping
occurrences). -/
structure PyRegex where
  search : String → Option ReMatch
  subEmpty : String → String

/-- A text element as the pattern parser sees it: current text plus the
parser-data (annotation) map.
Modelled from the spec: the element class exposing `get_text`, `set_text`
and `add_parser_data` is not among the sources at hand; spec §3/§4.1 give
it a mutable `text` and an annotation map with unique keys. -/
structure AltoElem where
  text : String
  parserData : PyDict (Option String)
deriving DecidableEq, Repr

/-- Modelled from the spec: `set_text(text)` replaces the element's current
text (spec §4.1: "set_text(text) replaces text"). -/
def setText (el : AltoElem) (t : String) : AltoElem := { el with text := t }

/-- Modelled from the spec: `add_parser_data(key, value)` overwrites any
prior value for the key (spec §4.1: "add_annotation(key, value) on an
element overwrites any prior value for key"). -/
def addParserData (el : AltoElem) (k : String) (v : Option String) : AltoElem :=
  { el with parserData := dictSet el.parserData k v }

/-- One parsed file: its ordered sequence of text lines (the flat list that
`get_text_lines()` returns). -/
structure AltoFileM where
  lines : List AltoElem
deriving DecidableEq, Repr

/-- The `PatternMatch` objects built by `AltoPatternParser.find`: the
pattern, the file index, the line index, and the regex match. -/
structure PatternMatch where
  pattern : PyRegex
  fidx : Nat
  lidx : Nat
  matched : ReMatch

/-- The state of an `AltoPatternParser`: the parser's files and the current
match list (the parser's `matches` attribute). -/
structure ParserState where
  files : List AltoFileM
  matchList : List PatternMatch

/-- The inner loop of `AltoPatternParser.find`: scan one file's lines in
order, `lidx` counting up, keeping one match per line that `re.search`
accepts. -/
def findLines (r : PyRegex) (lines : List AltoElem) (fidx lidx : Nat) :
    List PatternMatch :=
  match lines with
  | [] => []
  | ln :: rest =>
    match r.search ln.text with
    | some m => ⟨r, fidx, lidx, m⟩ :: findLines r rest fidx (lidx + 1)
    | none => findLines r rest fidx (lidx + 1)

/-- The outer loop of `AltoPatternParser.find`: files in insertion order,
`fidx` counting up. -/
def findFiles (r : PyRegex) (files : List AltoFileM) (fidx : Nat) :
    List PatternMatch :=
  match files with
  | [] => []
  | f :: rest => findLines r f.lines fidx 0 ++ findFiles r rest (fidx + 1)

/-- `AltoPatternParser.find` from pattern_parser.py: clear the match list,
then rebuild it by scanning every file's lines. -/
def find (r : PyRegex) (st : ParserState) : ParserState :=
  { st with matchList := findFiles r st.files 0 }

/-- The match list described by the specification of `find`: one entry per
element whose current text has a search match, in file order then element
order, indexed by (file index, element index). -/
def findSpecMatches (r : PyRegex) (files : List AltoFileM) : List PatternMatch :=
  (files.enum.map (fun fp =>
    fp.2.lines.enum.filterMap (fun lp =>
      (r.search lp.2.text).map (fun m => ⟨r, fp.1, lp.1, m⟩)))).flatten

/-- The element of `st` at file index `f`, line index `l`. -/
def elementAt (st : ParserState) (f l : Nat) : Option AltoElem :=
  match st.files[f]? with
  | some file => file.lines[l]?
  | none => none

theorem findLines_eq_enumFrom (r : PyRegex) (lines : List AltoElem)
    (fidx b : Nat) :
    findLines r lines fidx b = (lines.enumFrom b).filterMap (fun lp =>
      (r.search lp.2.text).map (fun m => ⟨r, fidx, lp.1, m⟩)) := by
  induction lines generalizing b with
  | nil => simp [findLines]
  | cons ln rest ih =>
    cases h : r.search ln.text <;>
      simp [findLines, List.enumFrom, h, ih]

theorem findFiles_eq_enumFrom (r : PyRegex) (files : List AltoFileM) (b : Nat) :
    findFiles r files b = ((files.enumFrom b).map (fun fp =>
      fp.2.lines.enum.filterMap (fun lp =>
        (r.search lp.2.text).map (fun m => ⟨r, fp.1, lp.1, m⟩)))).flatten := by
  induction files generalizing b with
  | nil => simp [findFiles]
  | cons f rest ih =>
    simp [findFiles, List.enumFrom, ih, findLines_eq_enumFrom, List.enum]

theorem findLines_mem (r : PyRegex) (lines : List AltoElem) (fidx b : Nat)
    (m : PatternMatch) (h : m ∈ findLines r lines fidx b) :
    m.fidx = fidx ∧ ∃ i el, lines[i]? = some el ∧ m.lidx = b + i ∧
      r.search el.text = some m.matched := by
  induction lines generalizing b with
  | nil => simp [findLines] at h
  | cons ln rest ih =>
    cases hs : r.search ln.text with
    | some mm =>
      simp only [findLines, hs] at h
      rcases List.mem_cons.mp h with rfl | hmem
      · exact ⟨rfl, 0, ln, by simp, by simp, hs⟩
      · obtain ⟨hf, i, el, hel, hl, hsr⟩ := ih (b + 1) hmem
        exact ⟨hf, i + 1, el, by simpa using hel, by omega, hsr⟩
    | none =>
      simp only [findLines, hs] at h
      obtain ⟨hf, i, el, hel, hl, hsr⟩ := ih (b + 1) h
      exact ⟨hf, i + 1, el, by simpa using hel, by omega, hsr⟩

theorem findFiles_mem (r : PyRegex) (files : List AltoFileM) (b : Nat)
    (m : PatternMatch) (h : m ∈ findFiles r files b) :
    ∃ j file, files[j]? = some file ∧ m.fidx = b + j ∧
      ∃ i el, file.lines[i]? = some el ∧ m.lidx = i ∧
        r.search el.text = some m.matched := by
  induction files generalizing b with
  | nil => simp [findFiles] at h
  | cons f rest ih =>
    simp only [findFiles] at h
    rcases List.mem_append.mp h with hl | hr
    · obtain ⟨hf, i, el, hel, hlid, hsr⟩ := findLines_mem r f.lines b 0 m hl
      exact ⟨0, f, by simp, by omega, i, el, hel, by omega, hsr⟩
    · obtain ⟨j, file, hfile, hf, rest'⟩ := ih (b + 1) hr
      exact ⟨j + 1, file, by simpa using hfile, by omega, rest'⟩

/-- C2: `find` replaces the current match set with exactly one entry per
element whose current text has a search match, in file-insertion then
element-insertion order, each entry's (file index, element index)
referencing the element it was found in; matches from earlier calls are
discarded. -/
theorem find_characterization (r : PyRegex) (st : ParserState) :
    (find r st).files = st.files ∧
    (find r st).matchList = findSpecMatches r st.files ∧
    ∀ m ∈ (find r st).matchList, ∃ el, elementAt st m.fidx m.lidx = some el ∧
      r.search el.text = some m.matched := by
  refine ⟨rfl, ?_, ?_⟩
  · show findFiles r st.files 0 = findSpecMatches r st.files
    rw [findFiles_eq_enumFrom]
    rfl
  · intro m hm
    obtain ⟨j, file, hfe, hf, i, el, hel, hl, hsr⟩ :=
      findFiles_mem r st.files 0 m hm
    refine ⟨el, ?_, hsr⟩
    unfold elementAt
    rw [show m.fidx = j by omega, hfe, hl]
    exact hel

/-- Python in-place mutation of one list slot: `lst[i] = f(lst[i])`. -/
def listModify {α : Type} (g : α → α) : Nat → List α → List α
  | _, [] => []
  | 0, x :: xs => g x :: xs
  | n + 1, x :: xs => x :: listModify g n xs

/-- Mutating one element in place:
`parser.get_alto_files()[f].get_text_lines()[l] := g(...)`. -/
def updateElem (st : ParserState) (f l : Nat) (g : AltoElem → AltoElem) :
    ParserState :=
  { st with
    files :=
      listModify (fun file => { file with lines := listModify g l file.lines }) f
        st.files }

/-- `AltoPatternParser.remove` from pattern_parser.py: for each stored
match, set the matched line's text to `re.sub(pattern, '', current text)`.
The match list itself is left in place. -/
def removeLoop (st : ParserState) : List PatternMatch → ParserState
  | [] => st
  | m :: rest =>
    removeLoop
      (updateElem st m.fidx m.lidx (fun el => setText el (m.pattern.subEmpty el.text)))
      rest

/-- `AltoPatternParser.remove`. -/
def remove (st : ParserState) : ParserState := removeLoop st st.matchList

theorem listModify_length {α : Type} (g : α → α) (n : Nat) (l : List α) :
    (listModify g n l).length = l.length := by
  induction l generalizing n with
  | nil => cases n <;> rfl
  | cons x xs ih =>
    cases n with
    | zero => simp [listModify]
    | succ n' => simp [listModify, ih]

theorem listModify_getElem? {α : Type} (g : α → α) (n : Nat) (l : List α)
    (m : Nat) :
    (listModify g n l)[m]? = if m = n then (l[m]?).map g else l[m]? := by
  induction l generalizing n m with
  | nil => simp [listModify]
  | cons x xs ih =>
    cases n with
    | zero =>
      cases m with
      | zero => simp [listModify]
      | succ m' => simp [listModify]
    | succ n' =>
      cases m with
      | zero => simp [listModify]
      | succ m' => simpa [listModify] using ih n' m'

theorem elementAt_updateElem (st : ParserState) (f l : Nat)
    (g : AltoElem → AltoElem) (f' l' : Nat) :
    elementAt (updateElem st f l g) f' l' =
      if f' = f ∧ l' = l then (elementAt st f' l').map g
      else elementAt st f' l' := by
  unfold elementAt updateElem
  simp only [listModify_getElem?]
  by_cases hf : f' = f
  · subst hf
    cases hfile : st.files[f']? with
    | none => simp [hfile]
    | some file =>
      simp only [hfile, Option.map_some, listModify_getElem?]
      by_cases hl : l' = l <;> simp [hl, listModify_getElem?]
  · simp [hf]

theorem updateElem_files_length (st : ParserState) (f l : Nat)
    (g : AltoElem → AltoElem) :
    (updateElem st f l g).files.length = st.files.length := by
  simp [updateElem, listModify_length]

theorem updateElem_lines_length (st : ParserState) (f l : Nat)
    (g : AltoElem → AltoElem) (f' : Nat) :
    ((updateElem st f l g).files[f']?).map (fun file => file.lines.length) =
      (st.files[f']?).map (fun file => file.lines.length) := by
  simp only [updateElem, listModify_getElem?]
  by_cases hf : f' = f
  · subst hf
    cases hfile : st.files[f']? <;> simp [hfile, listModify_length]
  · simp [hf]

theorem removeLoop_files_length (st : ParserState) (ms : List PatternMatch) :
    (removeLoop st ms).files.length = st.files.length := by
  induction ms generalizing st with
  | nil => rfl
  | cons m rest ih => simp [removeLoop, ih, updateElem_files_length]

theorem removeLoop_lines_length (st : ParserState) (ms : List PatternMatch)
    (f : Nat) :
    ((removeLoop st ms).files[f]?).map (fun file => file.lines.length) =
      (st.files[f]?).map (fun file => file.lines.length) := by
  induction ms generalizing st with
  | nil => rfl
  | cons m rest ih => rw [removeLoop, ih, updateElem_lines_length]

theorem removeLoop_untouched (st : ParserState) (ms : List PatternMatch)
    (f l : Nat) (h : ∀ m ∈ ms, ¬(m.fidx = f ∧ m.lidx = l)) :
    elementAt (removeLoop st ms) f l = elementAt st f l := by
  induction ms generalizing st with
  | nil => rfl
  | cons m rest ih =>
    rw [removeLoop, ih _ (fun m' hm' => h m' (List.mem_cons_of_mem _ hm')),
      elementAt_updateElem]
    have hm := h m (List.mem_cons_self _ _)
    have hcond : ¬(f = m.fidx ∧ l = m.lidx) :=
      fun hc => hm ⟨hc.1.symm, hc.2.symm⟩
    rw [if_neg hcond]

theorem removeLoop_once (st : ParserState) (a b : List PatternMatch)
    (m : PatternMatch) (f l : Nat) (hm : m.fidx = f ∧ m.lidx = l)
    (ha : ∀ m' ∈ a, ¬(m'.fidx = f ∧ m'.lidx = l))
    (hb : ∀ m' ∈ b, ¬(m'.fidx = f ∧ m'.lidx = l)) :
    elementAt (removeLoop st (a ++ m :: b)) f l =
      (elementAt st f l).map
        (fun el => setText el (m.pattern.subEmpty el.text)) := by
  induction a generalizing st with
  | nil =>
    rw [List.nil_append, removeLoop, removeLoop_untouched _ _ _ _ hb,
      elementAt_updateElem, hm.1, hm.2]
    simp
  | cons x a' ih =>
    rw [List.cons_append, removeLoop,
      ih _ (fun m' hm' => ha m' (List.mem_cons_of_mem _ hm')),
      elementAt_updateElem]
    have hx := ha x (List.mem_cons_self _ _)
    have hcond : ¬(f = x.fidx ∧ l = x.lidx) :=
      fun hc => hx ⟨hc.1.symm, hc.2.symm⟩
    rw [if_neg hcond]

/-- Whether the literal pattern `pat` occurs somewhere in `s`
(what `re.search` decides for a literal pattern). -/
def containsSub (s pat : List Char) : Bool :=
  match s with
  | [] => pat.isEmpty
  | c :: rest => pat.isPrefixOf (c :: rest) || containsSub rest pat

/-- `re.sub(pat, '', s)` for a nonempty literal `pat`: scan left to right
and delete each leftmost non-overlapping occurrence. Fuel-driven; the input
length suffices since every step consumes at least one character. -/
def removeEveryOcc (pat : List Char) : Nat → List Char → List Char
  | 0, s => s
  | _ + 1, [] => []
  | n + 1, c :: rest =>
    if pat.isPrefixOf (c :: rest) then
      removeEveryOcc pat n ((c :: rest).drop pat.length)
    else c :: removeEveryOcc pat n rest

/-- `re.search` for a literal pattern: a match (group 0 only, no capture
groups) exactly when the pattern occurs in the text. -/
def pySearchLit (pat : String) (s : String) : Option ReMatch :=
  if containsSub s.data pat.data then some ⟨[some pat]⟩ else none

/-- `re.sub(pat, '', s)` for a literal pattern: the empty pattern leaves the
text unchanged, otherwise every non-overlapping occurrence is deleted. -/
def pyReSubEmptyLit (pat : String) (s : String) : String :=
  if pat.data.isEmpty then s
  else String.mk (removeEveryOcc pat.data s.data.length s.data)

/-- A compiled literal pattern. -/
def literalRegex (pat : String) : PyRegex :=
  ⟨pySearchLit pat, pyReSubEmptyLit pat⟩

theorem findLines_split (r : PyRegex) (lines : List AltoElem) (fidx b l : Nat)
    (el : AltoElem) (mm : ReMatch) (hel : lines[l]? = some el)
    (hs : r.search el.text = some mm) :
    ∃ a c, findLines r lines fidx b = a ++ ⟨r, fidx, b + l, mm⟩ :: c ∧
      (∀ m' ∈ a, ¬(m'.fidx = fidx ∧ m'.lidx = b + l)) ∧
      (∀ m' ∈ c, ¬(m'.fidx = fidx ∧ m'.lidx = b + l)) := by
  induction lines generalizing b l with
  | nil => simp at hel
  | cons ln rest ih =>
    cases l with
    | zero =>
      have hln : ln = el := by simpa using hel
      subst hln
      refine ⟨[], findLines r rest fidx (b + 1), by simp [findLines, hs], by simp, ?_⟩
      intro m' hm' hc
      obtain ⟨_, i, el', _, hlid, _⟩ := findLines_mem r rest fidx (b + 1) m' hm'
      omega
    | succ l' =>
      have hel' : rest[l']? = some el := by simpa using hel
      obtain ⟨a, c, heq, hA, hC⟩ := ih (b + 1) l' hel'
      have harith : b + 1 + l' = b + (l' + 1) := by omega
      rw [harith] at heq hA hC
      cases hsln : r.search ln.text with
      | some m0 =>
        refine ⟨⟨r, fidx, b, m0⟩ :: a, c, by simp [findLines, hsln, heq], ?_, hC⟩
        intro m' hm' hc
        rcases List.mem_cons.mp hm' with rfl | hmem
        · simp at hc
        · exact hA m' hmem hc
      | none =>
        exact ⟨a, c, by simp [findLines, hsln, heq], hA, hC⟩

theorem findFiles_split (r : PyRegex) (files : List AltoFileM) (b f l : Nat)
    (file : AltoFileM) (el : AltoElem) (mm : ReMatch)
    (hfile : files[f]? = some file) (hel : file.lines[l]? = some el)
    (hs : r.search el.text = some mm) :
    ∃ a c, findFiles r files b = a ++ ⟨r, b + f, l, mm⟩ :: c ∧
      (∀ m' ∈ a, ¬(m'.fidx = b + f ∧ m'.lidx = l)) ∧
      (∀ m' ∈ c, ¬(m'.fidx = b + f ∧ m'.lidx = l)) := by
  induction files generalizing b f with
  | nil => simp at hfile
  | cons f0 rest ih =>
    cases f with
    | zero =>
      have hf0 : f0 = file := by simpa using hfile
      subst hf0
      obtain ⟨a, c, heq, hA, hC⟩ := findLines_split r f0.lines b 0 l el mm hel hs
      have hz : (0 : Nat) + l = l := by omega
      rw [hz] at heq hA hC
      refine ⟨a, c ++ findFiles r rest (b + 1), ?_, ?_, ?_⟩
      · show findLines r f0.lines b 0 ++ findFiles r rest (b + 1) = _
        rw [heq]
        simp
      · intro m' hm' hc
        exact hA m' hm' (by simpa using hc)
      · intro m' hm' hc
        rcases List.mem_append.mp hm' with hcm | hfm
        · exact hC m' hcm (by simpa using hc)
        · obtain ⟨j, _, _, hfj, _⟩ := findFiles_mem r rest (b + 1) m' hfm
          omega
    | succ f' =>
      obtain ⟨a, c, heq, hA, hC⟩ := ih (b + 1) f' (by simpa using hfile)
      have harith : b + 1 + f' = b + (f' + 1) := by omega
      rw [harith] at heq hA hC
      refine ⟨findLines r f0.lines b 0 ++ a, c, ?_, ?_, hC⟩
      · show findLines r f0.lines b 0 ++ findFiles r rest (b + 1) = _
        rw [heq]
        simp
      · intro m' hm' hc
        rcases List.mem_append.mp hm' with hlm | ham
        · obtain ⟨hfm, _⟩ := findLines_mem r f0.lines b 0 m' hlm
          omega
        · exact hA m' ham hc

theorem remove_find_pointwise (r : PyRegex) (st : ParserState) (f l : Nat) :
    elementAt (remove (find r st)) f l =
      (elementAt st f l).map (fun el =>
        if (r.search el.text).isSome then setText el (r.subEmpty el.text)
        else el) := by
  have hfind : ∀ f' l', elementAt (find r st) f' l' = elementAt st f' l' :=
    fun _ _ => rfl
  show elementAt (removeLoop (find r st) (findFiles r st.files 0)) f l = _
  cases hel : elementAt st f l with
  | none =>
    have hno : ∀ m ∈ findFiles r st.files 0, ¬(m.fidx = f ∧ m.lidx = l) := by
      intro m hm hc
      obtain ⟨j, file, hfile, hfj, i, el, hel', hl, _⟩ :=
        findFiles_mem r st.files 0 m hm
      have : elementAt st f l = some el := by
        unfold elementAt
        rw [show f = j by omega, hfile, show l = i by omega]
        exact hel'
      rw [hel] at this
      exact Option.noConfusion this
    rw [removeLoop_untouched _ _ _ _ hno, hfind, hel]
    rfl
  | some el =>
    cases hs : r.search el.text with
    | none =>
      have hno : ∀ m ∈ findFiles r st.files 0, ¬(m.fidx = f ∧ m.lidx = l) := by
        intro m hm hc
        obtain ⟨j, file, hfile, hfj, i, el', hel', hl, hsr⟩ :=
          findFiles_mem r st.files 0 m hm
        have hsame : elementAt st f l = some el' := by
          unfold elementAt
          rw [show f = j by omega, hfile, show l = i by omega]
          exact hel'
        rw [hel] at hsame
        have : el' = el := by injection hsame.symm
        rw [this] at hsr
        rw [hs] at hsr
        exact Option.noConfusion hsr
      rw [removeLoop_untouched _ _ _ _ hno, hfind, hel]
      simp [hs]
    | some mm =>
      have hfl : ∃ file, st.files[f]? = some file ∧ file.lines[l]? = some el := by
        unfold elementAt at hel
        cases hfile : st.files[f]? with
        | none => rw [hfile] at hel; exact Option.noConfusion hel
        | some file => rw [hfile] at hel; exact ⟨file, rfl, hel⟩
      obtain ⟨file, hfile, hline⟩ := hfl
      obtain ⟨a, c, heq, hA, hC⟩ :=
        findFiles_split r st.files 0 f l file el mm hfile hline hs
      have hz : (0 : Nat) + f = f := by omega
      rw [hz] at heq hA hC
      rw [heq, removeLoop_once (find r st) a c _ f l ⟨rfl, rfl⟩ hA hC, hfind, hel]
      simp [hs]

/-- C3: `remove()` on the match set of a `find` with a (literal) pattern
replaces every matched element's text by the text with every
non-overlapping occurrence of the pattern deleted, deletes no element
structurally, and leaves every unmatched element unchanged. -/
theorem remove_characterization (pat : String) (st : ParserState) :
    (remove (find (literalRegex pat) st)).files.length = st.files.length ∧
    (∀ f : Nat, ((remove (find (literalRegex pat) st)).files[f]?).map
        (fun file => file.lines.length) =
      (st.files[f]?).map (fun file => file.lines.length)) ∧
    (∀ f l : Nat, elementAt (remove (find (literalRegex pat) st)) f l =
      (elementAt st f l).map (fun el =>
        if (pySearchLit pat el.text).isSome
        then setText el (pyReSubEmptyLit pat el.text) else el)) := by
  refine ⟨?_, ?_, ?_⟩
  · exact removeLoop_files_length (find (literalRegex pat) st)
      ((find (literalRegex pat) st).matchList)
  · intro f
    exact removeLoop_lines_length (find (literalRegex pat) st)
      ((find (literalRegex pat) st).matchList) f
  · intro f l
    exact remove_find_pointwise (literalRegex pat) st f l

/-- `AltoPatternParser.categorize` from pattern_parser.py, one match at a
time: `add_parser_data(category, match.match.group(1))`; Python's
`group(1)` raises IndexError when the pattern has no capture group 1. -/
def categorizeLoop (category : String) (st : ParserState) :
    List PatternMatch → Except String ParserState
  | [] => .ok st
  | m :: rest =>
    match m.matched.groups[1]? with
    | some g =>
      categorizeLoop category
        (updateElem st m.fidx m.lidx (fun el => addParserData el category g)) rest
    | none => .error "IndexError: no such group"

/-- `AltoPatternParser.categorize`. -/
def categorize (category : String) (st : ParserState) : Except String ParserState :=
  categorizeLoop category st st.matchList

/-- The same loop when every match has a group 1 (pure view). -/
def catFold (category : String) (st : ParserState) :
    List PatternMatch → ParserState
  | [] => st
  | m :: rest =>
    catFold category
      (updateElem st m.fidx m.lidx
        (fun el => addParserData el category (m.matched.groups.getD 1 none))) rest

theorem categorizeLoop_ok (category : String) (st : ParserState)
    (ms : List PatternMatch) (h : ∀ m ∈ ms, 1 < m.matched.groups.length) :
    categorizeLoop category st ms = .ok (catFold category st ms) := by
  induction ms generalizing st with
  | nil => rfl
  | cons m rest ih =>
    have hm := h m (List.mem_cons_self _ _)
    cases hg : m.matched.groups[1]? with
    | none =>
      have := List.getElem?_eq_none_iff.mp hg
      omega
    | some g =>
      have hgd : m.matched.groups.getD 1 none = g := by
        simp [List.getD, hg]
      rw [categorizeLoop, hg, catFold, hgd]
      exact ih _ (fun m' hm' => h m' (List.mem_cons_of_mem _ hm'))

theorem categorizeLoop_error (category : String) (st : ParserState)
    (ms : List PatternMatch) (h : ∃ m ∈ ms, m.matched.groups.length ≤ 1) :
    ∃ msg, categorizeLoop category st ms = .error msg := by
  induction ms generalizing st with
  | nil => simp at h
  | cons m rest ih =>
    cases hg : m.matched.groups[1]? with
    | none => exact ⟨"IndexError: no such group", by rw [categorizeLoop, hg]⟩
    | some g =>
      have hlen : 1 < m.matched.groups.length := by
        by_contra hc
        rw [List.getElem?_eq_none_iff.mpr (by omega)] at hg
        exact Option.noConfusion hg
      obtain ⟨m0, hm0, hshort⟩ := h
      rcases List.mem_cons.mp hm0 with rfl | hmem
      · omega
      · rw [categorizeLoop, hg]
        exact ih _ ⟨m0, hmem, hshort⟩

theorem catFold_files_length (category : String) (st : ParserState)
    (ms : List PatternMatch) :
    (catFold category st ms).files.length = st.files.length := by
  induction ms generalizing st with
  | nil => rfl
  | cons m rest ih => simp [catFold, ih, updateElem_files_length]

theorem catFold_lines_length (category : String) (st : ParserState)
    (ms : List PatternMatch) (f : Nat) :
    ((catFold category st ms).files[f]?).map (fun file => file.lines.length) =
      (st.files[f]?).map (fun file => file.lines.length) := by
  induction ms generalizing st with
  | nil => rfl
  | cons m rest ih => rw [catFold, ih, updateElem_lines_length]

theorem catFold_untouched (category : String) (st : ParserState)
    (ms : List PatternMatch) (f l : Nat)
    (h : ∀ m ∈ ms, ¬(m.fidx = f ∧ m.lidx = l)) :
    elementAt (catFold category st ms) f l = elementAt st f l := by
  induction ms generalizing st with
  | nil => rfl
  | cons m rest ih =>
    rw [catFold, ih _ (fun m' hm' => h m' (List.mem_cons_of_mem _ hm')),
      elementAt_updateElem]
    have hm := h m (List.mem_cons_self _ _)
    have hcond : ¬(f = m.fidx ∧ l = m.lidx) :=
      fun hc => hm ⟨hc.1.symm, hc.2.symm⟩
    rw [if_neg hcond]

theorem catFold_once (category : String) (st : ParserState)
    (a b : List PatternMatch) (m : PatternMatch) (f l : Nat)
    (hm : m.fidx = f ∧ m.lidx = l)
    (ha : ∀ m' ∈ a, ¬(m'.fidx = f ∧ m'.lidx = l))
    (hb : ∀ m' ∈ b, ¬(m'.fidx = f ∧ m'.lidx = l)) :
    elementAt (catFold category st (a ++ m :: b)) f l =
      (elementAt st f l).map
        (fun el => addParserData el category (m.matched.groups.getD 1 none)) := by
  induction a generalizing st with
  | nil =>
    rw [List.nil_append, catFold, catFold_untouched _ _ _ _ _ hb,
      elementAt_updateElem, hm.1, hm.2]
    simp
  | cons x a' ih =>
    rw [List.cons_append, catFold,
      ih _ (fun m' hm' => ha m' (List.mem_cons_of_mem _ hm')),
      elementAt_updateElem]
    have hx := ha x (List.mem_cons_self _ _)
    have hcond : ¬(f = x.fidx ∧ l = x.lidx) :=
      fun hc => hx ⟨hc.1.symm, hc.2.symm⟩
    rw [if_neg hcond]

theorem categorize_find_pointwise (r : PyRegex) (st : ParserState)
    (category : String) (f l : Nat) :
    elementAt (catFold category (find r st) ((find r st).matchList)) f l =
      (elementAt st f l).map (fun el =>
        match r.search el.text with
        | some mm => addParserData el category (mm.groups.getD 1 none)
        | none => el) := by
  have hfind : ∀ f' l', elementAt (find r st) f' l' = elementAt st f' l' :=
    fun _ _ => rfl
  show elementAt (catFold category (find r st) (findFiles r st.files 0)) f l = _
  cases hel : elementAt st f l with
  | none =>
    have hno : ∀ m ∈ findFiles r st.files 0, ¬(m.fidx = f ∧ m.lidx = l) := by
      intro m hm hc
      obtain ⟨j, file, hfile, hfj, i, el, hel', hl, _⟩ :=
        findFiles_mem r st.files 0 m hm
      have : elementAt st f l = some el := by
        unfold elementAt
        rw [show f = j by omega, hfile, show l = i by omega]
        exact hel'
      rw [hel] at this
      exact Option.noConfusion this
    rw [catFold_untouched _ _ _ _ _ hno, hfind, hel]
    rfl
  | some el =>
    cases hs : r.search el.text with
    | none =>
      have hno : ∀ m ∈ findFiles r st.files 0, ¬(m.fidx = f ∧ m.lidx = l) := by
        intro m hm hc
        obtain ⟨j, file, hfile, hfj, i, el', hel', hl, hsr⟩ :=
          findFiles_mem r st.files 0 m hm
        have hsame : elementAt st f l = some el' := by
          unfold elementAt
          rw [show f = j by omega, hfile, show l = i by omega]
          exact hel'
        rw [hel] at hsame
        have : el' = el := by injection hsame.symm
        rw [this] at hsr
        rw [hs] at hsr
        exact Option.noConfusion hsr
      rw [catFold_untouched _ _ _ _ _ hno, hfind, hel]
      simp [hs]
    | some mm =>
      have hfl : ∃ file, st.files[f]? = some file ∧ file.lines[l]? = some el := by
        unfold elementAt at hel
        cases hfile : st.files[f]? with
        | none => rw [hfile] at hel; exact Option.noConfusion hel
        | some file => rw [hfile] at hel; exact ⟨file, rfl, hel⟩
      obtain ⟨file, hfile, hline⟩ := hfl
      obtain ⟨a, c, heq, hA, hC⟩ :=
        findFiles_split r st.files 0 f l file el mm hfile hline hs
      have hz : (0 : Nat) + f = f := by omega
      rw [hz] at heq hA hC
      show elementAt (catFold category (find r st) (findFiles r st.files 0)) f l = _
      rw [heq, catFold_once category (find r st) a c _ f l ⟨rfl, rfl⟩ hA hC,
        hfind, hel]
      simp [hs]

/-- C7 amended: for find-produced match sets, `categorize(key)` with a
single string key stores each match's capture group 1 under that key in the
matched element's annotation map; but when a match has no capture group 1,
`categorize` raises an IndexError (it is not a no-op). -/
theorem categorize_characterization (r : PyRegex) (st : ParserState)
    (category : String) :
    ((∀ m ∈ (find r st).matchList, 1 < m.matched.groups.length) →
      ∃ st', categorize category (find r st) = .ok st' ∧
        ∀ f l : Nat, elementAt st' f l = (elementAt st f l).map (fun el =>
          match r.search el.text with
          | some mm => addParserData el category (mm.groups.getD 1 none)
          | none => el)) ∧
    ((∃ m ∈ (find r st).matchList, m.matched.groups.length ≤ 1) →
      ∃ msg, categorize category (find r st) = .error msg) := by
  constructor
  · intro h
    refine ⟨catFold category (find r st) ((find r st).matchList),
      categorizeLoop_ok _ _ _ h, ?_⟩
    intro f l
    exact categorize_find_pointwise r st category f l
  · intro h
    exact categorizeLoop_error _ _ _ h

/-- A pattern with one capture group: on the text "num 42" it matches with
group 1 = "42". -/
def groupRegex0 : PyRegex :=
  ⟨fun s => if s = "num 42" then some ⟨[some "num 42", some "42"]⟩ else none,
   fun s => s⟩

/-- A two-line document for the categorize witness. -/
def catWitState : ParserState :=
  ⟨[⟨[⟨"num 42", []⟩, ⟨"other", []⟩]⟩], []⟩

/-- Witness for the amended C7: with a pattern that has a group 1,
`categorize` stores the group under the key on the matched element. -/
theorem categorize_characterization_witness :
    ∃ st', categorize "value" (find groupRegex0 catWitState) = .ok st' ∧
      ∀ f l : Nat, elementAt st' f l = (elementAt catWitState f l).map (fun el =>
        match groupRegex0.search el.text with
        | some mm => addParserData el "value" (mm.groups.getD 1 none)
        | none => el) :=
  (categorize_characterization groupRegex0 catWitState "value").1 (by decide)

/-- The one-line document for the C7 counterexample. -/
def catCexState : ParserState := ⟨[⟨[⟨"abc", []⟩]⟩], []⟩

/-- C7 counterexample: a literal pattern has no capture group 1, so on a
nonempty match set `categorize` raises IndexError instead of being a
no-op. -/
theorem categorize_missing_group_refutes :
    ((find (literalRegex "b") catCexState).matchList).length = 1 ∧
    exceptIsOk (categorize "k" (find (literalRegex "b") catCexState)) = false := by
  decide

/-- A Python `AltoFile` instance's own attribute dict: `__init__`
(alto_file.py) assigns `file_path` and `file_meta_data` but never
`text_regions`, so that instance attribute stays absent (`none`). Regions
are opaque tokens here. -/
structure PyAltoFile where
  file_path : String
  instTextRegions : Option (List Nat) := none
deriving DecidableEq, Repr

/-- The interpreter state for the `AltoFile` class: the class attribute
`AltoFile.text_regions` (one list object shared by the class, alto_file.py)
and the constructed instances. -/
structure AltoFileWorld where
  classTextRegions : List Nat
  instances : List PyAltoFile
deriving DecidableEq, Repr

/-- `AltoFile(file_path)`: the constructor assigns no `text_regions`
instance attribute. -/
def mkAltoFile (path : String) : PyAltoFile := ⟨path, none⟩

/-- `AltoFile.get_text_regions` under Python attribute resolution:
`self.text_regions` is the instance attribute when assigned, else the class
attribute. -/
def get_text_regions (w : AltoFileWorld) (i : Nat) : List Nat :=
  match w.instances[i]? with
  | some f => f.instTextRegions.getD w.classTextRegions
  | none => w.classTextRegions

/-- `AltoFile.parse_text` (alto_file.py): for each TextBlock of the parsed
tree, `self.text_regions.append(region_object)`. The attribute lookup
resolves to the class-level list whenever the instance attribute was never
assigned, so the appends then mutate the shared class attribute. -/
def parse_text (w : AltoFileWorld) (i : Nat) (parsedRegions : List Nat) :
    AltoFileWorld :=
  match w.instances[i]? with
  | some f =>
    match f.instTextRegions with
    | some own =>
      let setRegions := fun inst =>
        { inst with instTextRegions := some (own ++ parsedRegions) }
      { w with instances := listModify setRegions i w.instances }
    | none => { w with classTextRegions := w.classTextRegions ++ parsedRegions }
  | none => w

/-- C8 is a code bug: `text_regions` is a mutable class attribute that
`__init__` never shadows, so two `AltoFile` objects share one region list.
Before parsing, file 1's `get_text_regions()` is empty; after file 0 parses
one TextBlock, file 1's `get_text_regions()` contains file 0's region. -/
theorem altoFile_shared_text_regions :
    get_text_regions ⟨[], [mkAltoFile "a.xml", mkAltoFile "b.xml"]⟩ 1 = [] ∧
    get_text_regions
      (parse_text ⟨[], [mkAltoFile "a.xml", mkAltoFile "b.xml"]⟩ 0 [7]) 1 = [7] := by
  decide
